import Mathlib

/-!
# Verification of the KU download-and-parse pipeline

Shallow embedding of the acquisition-and-merge pipeline of the
`ku_download_parse_app` repository (`src/main.py`,
`src/entities/ku_parser.py`), and proofs of the specification claims
about it.

Modelling conventions:
* The staging directory is modelled relative to `download_path`: a file
  system is a finite association list from paths (lists of name
  components) to file contents (strings); later writes overwrite.
* A zip archive is a list of entries (internal path, content); an
  unreadable/corrupt archive is `none`.
* The external spatial engine (arcpy) is modelled by its contract:
  `SpatialJoin` produces an opaque feature list, `Append` concatenates
  features onto the store, `CopyFeatures` copies the transient list,
  `Delete` clears the transient slot.  A call that raises is modelled by
  a `Bool`/`Option` outcome parameter.
-/

/-- A path relative to the staging (download) directory, as name components. -/
abbrev FPath := List String

/-- File system of the staging directory: association list from path to
file content.  `fsLookup` returns the binding closest to the head. -/
abbrev FS := List (FPath × String)

/-- Look up the content stored at path `p`. -/
def fsLookup (fs : FS) (p : FPath) : Option String :=
  match fs with
  | [] => none
  | e :: rest => if e.1 = p then some e.2 else fsLookup rest p

/-- Write content `c` at path `p`, overwriting any previous binding
(models the overwrite semantics of `ZipFile.extractall`). -/
def fsSet (fs : FS) (p : FPath) (c : String) : FS :=
  (p, c) :: fs.filter (fun e => e.1 ≠ p)

/-- Apply a list of writes left to right (so later writes win). -/
def applyWrites (ws : List (FPath × String)) (fs : FS) : FS :=
  ws.foldl (fun acc w => fsSet acc w.1 w.2) fs

/-- The last write to `q` in a write list (later entries take priority). -/
def lastWriteTo (ws : List (FPath × String)) (q : FPath) : Option String :=
  match ws with
  | [] => none
  | w :: rest =>
      match lastWriteTo rest q with
      | some c => some c
      | none => if w.1 = q then some w.2 else none

/-- One member of a zip archive: its internal path and its bytes.
`filename` holds the `/`-separated components of `ZipInfo.filename`
(so the member `"635049/PARCELY_KN_P.shp"` is `["635049",
"PARCELY_KN_P.shp"]`, a root-level member `"PARCELY_KN_P.shp"` is
`["PARCELY_KN_P.shp"]`, and a directory member `"635049/"` is
`["635049", ""]`, exactly as Python's `split('/')` yields). -/
structure ZipEntry where
  filename : List String
  content : String
  deriving Repr, DecidableEq

namespace KUParser

/-- The fixed target manifest of `KUParser.extract_zip_files`
(ku_parser.py lines 106-116). -/
def to_extract : List String :=
  ["PARCELY_KN_DEF.cpg", "PARCELY_KN_DEF.dbf", "PARCELY_KN_DEF.prj",
   "PARCELY_KN_DEF.shp", "PARCELY_KN_DEF.shx",
   "PARCELY_KN_P.cpg", "PARCELY_KN_P.dbf", "PARCELY_KN_P.prj",
   "PARCELY_KN_P.shp", "PARCELY_KN_P.shx"]

/-- Base filename of a zip member: `x.filename.split('/')[-1]`
(ku_parser.py line 92). -/
def baseName (parts : List String) : String := parts.getLastD ""

/-- The filter of `extract_zip_file`: keep a member iff its base
filename is listed in the manifest (ku_parser.py lines 92-93). -/
def matchesManifest (toExtract : List String) (e : ZipEntry) : Bool :=
  toExtract.contains (baseName e.filename)

/-- Destination of an extracted member: `ZipFile.extractall` with
`path=self.unpacked_path` writes each selected member at
`unpacked/<member internal path>` (ku_parser.py lines 94-95).  The
archive's own filename plays no part in the destination. -/
def entryDest (e : ZipEntry) : FPath := "unpacked" :: e.filename

/-- The file writes performed by extracting the selected members of one
archive. -/
def writesOf (toExtract : List String) (entries : List ZipEntry) :
    List (FPath × String) :=
  (entries.filter (matchesManifest toExtract)).map (fun e => (entryDest e, e.content))

/-- Model of `KUParser.extract_zip_file` (ku_parser.py lines 83-97):
filter the archive members by base filename against the manifest and
extract exactly those into the `unpacked` tree, overwriting. -/
def extract_zip_file (fs : FS) (toExtract : List String)
    (entries : List ZipEntry) : FS :=
  applyWrites (writesOf toExtract entries) fs

/-- A staged archive: its filename in the staging directory and its
members, or `none` when the archive cannot be opened/extracted. -/
abbrev Archive := String × Option (List ZipEntry)

/-- Model of `KUParser.extract_zip_files` (ku_parser.py lines 99-127):
iterate over the `*.zip` files of the staging directory; extract each
readable archive with `extract_zip_file`; on failure log a warning and
continue with the next archive.  Returns the resulting file system and
the logged warnings, in loop order. -/
def extract_zip_files (fs : FS) : List Archive → FS × List String
  | [] => (fs, [])
  | (_, some entries) :: rest =>
      extract_zip_files (extract_zip_file fs to_extract entries) rest
  | (nm, none) :: rest =>
      let r := extract_zip_files fs rest
      (r.1, ("Error extracting zip file: " ++ nm) :: r.2)

/-- All file writes performed by the extraction stage, in order:
the concatenation of the writes of each readable archive. -/
def stageWrites : List Archive → List (FPath × String)
  | [] => []
  | (_, some entries) :: rest => writesOf to_extract entries ++ stageWrites rest
  | (_, none) :: rest => stageWrites rest

/-- A path of the shape the extractor can produce: directly under
`unpacked/`, with a base filename listed in the manifest. -/
def isManifestDest (toExtract : List String) : FPath → Bool
  | "unpacked" :: comps => toExtract.contains (baseName comps)
  | _ => false

end KUParser

section FsLemmas

theorem lastWriteTo_cons (w : FPath × String) (rest : List (FPath × String)) (q : FPath) :
    lastWriteTo (w :: rest) q =
      match lastWriteTo rest q with
      | some c => some c
      | none => if w.1 = q then some w.2 else none := rfl

theorem fsLookup_filter_ne (fs : FS) (p q : FPath) (h : q ≠ p) :
    fsLookup (fs.filter (fun e => e.1 ≠ p)) q = fsLookup fs q := by
  induction fs with
  | nil => rfl
  | cons e rest ih =>
      rw [List.filter_cons]
      by_cases he : e.1 = p
      · rw [if_neg (by simp [he])]
        rw [ih, fsLookup, if_neg (show ¬e.1 = q from fun hc => h (hc ▸ he))]
      · rw [if_pos (by simp [he])]
        rw [fsLookup, fsLookup, ih]

/-- `fsSet` only changes the binding at its own path. -/
theorem fsLookup_fsSet (fs : FS) (p : FPath) (c : String) (q : FPath) :
    fsLookup (fsSet fs p c) q = if q = p then some c else fsLookup fs q := by
  unfold fsSet
  by_cases h : q = p
  · rw [fsLookup, if_pos h.symm, if_pos h]
  · rw [fsLookup, if_neg (fun hc => h hc.symm), if_neg h]
    exact fsLookup_filter_ne fs p q h

/-- Looking up after a batch of writes: the last write to the path wins;
paths never written keep their old content. -/
theorem fsLookup_applyWrites (ws : List (FPath × String)) (fs : FS) (q : FPath) :
    fsLookup (applyWrites ws fs) q =
      match lastWriteTo ws q with
      | some c => some c
      | none => fsLookup fs q := by
  induction ws generalizing fs with
  | nil => rfl
  | cons w rest ih =>
      show fsLookup (applyWrites rest (fsSet fs w.1 w.2)) q = _
      rw [ih, fsLookup_fsSet, lastWriteTo_cons]
      cases hl : lastWriteTo rest q with
      | some c => simp
      | none =>
          by_cases hq : q = w.1
          · simp [hq]
          · rw [if_neg hq, if_neg (fun hc => hq hc.symm)]

/-- A path that is never written keeps no last write. -/
theorem lastWriteTo_eq_none (ws : List (FPath × String)) (q : FPath)
    (h : q ∉ ws.map Prod.fst) : lastWriteTo ws q = none := by
  induction ws with
  | nil => rfl
  | cons w rest ih =>
      rw [lastWriteTo_cons]
      rw [ih (fun hm => h (by rw [List.map_cons]; exact List.mem_cons_of_mem _ hm))]
      rw [if_neg (fun he => h (by rw [← he, List.map_cons]; exact List.mem_cons_self _ _))]

/-- With pairwise-distinct write paths, each write is the last write to
its own path. -/
theorem lastWriteTo_of_nodup (ws : List (FPath × String)) (p : FPath) (c : String)
    (hnd : (ws.map Prod.fst).Nodup) (hm : (p, c) ∈ ws) :
    lastWriteTo ws p = some c := by
  induction ws with
  | nil => cases hm
  | cons w rest ih =>
      rw [List.map_cons, List.nodup_cons] at hnd
      rw [lastWriteTo_cons]
      rcases List.mem_cons.mp hm with he | hr
      · have hp : p = w.1 := by rw [← he]
        have hnm : p ∉ rest.map Prod.fst := by rw [hp]; exact hnd.1
        rw [lastWriteTo_eq_none rest p hnm, if_pos hp.symm, ← he]
      · rw [ih hnd.2 hr]

/-- A last write exists exactly at the written paths. -/
theorem lastWriteTo_isSome (ws : List (FPath × String)) (q : FPath) :
    (lastWriteTo ws q).isSome = (ws.map Prod.fst).contains q := by
  induction ws with
  | nil => rfl
  | cons w rest ih =>
      rw [lastWriteTo_cons]
      cases hl : lastWriteTo rest q with
      | some c =>
          have hc : (rest.map Prod.fst).contains q = true := by
            rw [← ih, hl]; rfl
          simp only [List.map_cons, List.contains_cons, hc, Bool.or_true, Option.isSome_some]
      | none =>
          have hrc : (rest.map Prod.fst).contains q = false := by
            rw [← ih, hl]; rfl
          by_cases hq : w.1 = q
          · subst hq
            simp [List.contains_cons]
          · have hb : (q == w.1) = false := by
              simp only [beq_eq_false_iff_ne, ne_eq]
              exact fun hc => hq hc.symm
            show (if w.1 = q then some w.2 else none).isSome = _
            rw [if_neg hq]
            simp only [Option.isSome_none, List.map_cons, List.contains_cons, hrc, hb,
              Bool.or_false]

end FsLemmas

/-- Abstract feature (row) of a spatial dataset. -/
abbrev Feature := Nat

namespace KUParser

/-- State of the geodatabase as seen by `process_single_ku`:
the cumulative store `KU` (`none` when `arcpy.Exists('KU')` is false)
and the transient dataset `in_memory/spatial_join`. -/
structure EngineState where
  ku : Option (List Feature)
  transient : Option (List Feature)
  deriving Repr, DecidableEq

/-- Outcome of one `process_single_ku` call: the geodatabase state after
the call, and the exception it raised, if any (exceptions propagate to
the caller). -/
structure StepResult where
  state : EngineState
  error : Option String
  deriving Repr, DecidableEq

/-- Model of `KUParser.process_single_ku` (ku_parser.py lines 129-153).
`joinRes` is the outcome of the external `arcpy.analysis.SpatialJoin`
call for this unit (`none` when it raises, e.g. a missing shapefile);
on success it writes the joined features to `in_memory/spatial_join`.
`appendOk` is whether the external `arcpy.Append_management` call
succeeds.  The fold step: if `KU` exists, append the transient features
to it; otherwise create `KU` by `CopyFeatures` from the transient.
`arcpy.Delete_management('in_memory/spatial_join')` runs only after a
fold step that did not raise (there is no try/finally around it). -/
def process_single_ku (st : EngineState) (joinRes : Option (List Feature))
    (appendOk : Bool) : StepResult :=
  match joinRes with
  | none => { state := st, error := some "SpatialJoin failed" }
  | some j =>
      let st1 : EngineState := { st with transient := some j }
      match st1.ku with
      | some ku =>
          if appendOk then
            { state := { ku := some (ku ++ j), transient := none }, error := none }
          else
            { state := st1, error := some "Append failed" }
      | none =>
          { state := { ku := some j, transient := none }, error := none }

/-- One abstract call made by `upload_data_to_gdb` to the arcpy layer.
`makeSpatialReference` is the construction of an `arcpy.SpatialReference`
object (bound to the local `sr`); `applySpatialReference` would be an
assignment of a spatial reference to the workspace environment. -/
inductive GdbEvent where
  | createFileGDB (parent : String) (name : String)
  | deleteStore (name : String)
  | setWorkspace (p : String)
  | setXYDomain (v : String)
  | makeSpatialReference (n : String)
  | applySpatialReference (n : String)
  | setOverwriteOutput (b : Bool)
  | setParallelProcessingFactor (v : String)
  | processUnit (name : String)
  deriving Repr, DecidableEq

/-- Whether an event applies a spatial reference to the workspace
environment. -/
def isApplySpatialReference : GdbEvent → Bool
  | GdbEvent.applySpatialReference _ => true
  | _ => false

/-- Trace of arcpy calls issued by `KUParser.upload_data_to_gdb`
(ku_parser.py lines 156-186), in source order: create the file GDB when
`gdb_path` does not exist, otherwise delete the stale `KU` store; set
the workspace, the XY domain, build the (unused) spatial-reference
object, enable overwrite, set the parallel-processing factor; then
process the units listed under `unpacked/` one at a time.  The code
never assigns a spatial reference to the workspace environment, so no
`applySpatialReference` event is ever emitted. -/
def upload_data_to_gdb_trace (gdbExists : Bool) (gdbParent gdbName : String)
    (units : List String) : List GdbEvent :=
  (if gdbExists then [GdbEvent.deleteStore "KU"]
   else [GdbEvent.createFileGDB gdbParent gdbName])
  ++ [GdbEvent.setWorkspace (gdbParent ++ "/" ++ gdbName),
      GdbEvent.setXYDomain "-916406 -1234597 -419902 -738093",
      GdbEvent.makeSpatialReference "S-JTSK_Krovak_East_North",
      GdbEvent.setOverwriteOutput true,
      GdbEvent.setParallelProcessingFactor "100%"]
  ++ units.map GdbEvent.processUnit

/-- The per-unit loop of `KUParser.upload_data_to_gdb` (ku_parser.py
lines 176-181): for each name under `unpacked/`, call
`process_single_ku`; an exception from it is caught, logged as a
warning, and the loop continues with the next unit.  `joins` and
`appendOkOf` give each unit's external-call outcomes.  Returns the final
geodatabase state and the logged warnings. -/
def upload_loop (joins : String → Option (List Feature))
    (appendOkOf : String → Bool) : List String → EngineState →
    EngineState × List String
  | [], st => (st, [])
  | u :: rest, st =>
      let r := process_single_ku st (joins u) (appendOkOf u)
      let t := upload_loop joins appendOkOf rest r.state
      (t.1,
       (match r.error with
        | none => []
        | some _ => ["Error processing KU: " ++ u]) ++ t.2)

/-- glob pattern `*.zip` on a directory entry name: the name ends with
the four characters `.zip`. -/
def isZipName (n : String) : Bool := ".zip".data.isSuffixOf n.data

/-- The staging directory: names of the files directly inside
`download_path`, plus the `unpacked/` subtree (modelled separately,
since `glob('*.zip')` is non-recursive and never descends into it). -/
structure Staging where
  files : List String
  unpacked : FS
  deriving Repr, DecidableEq

/-- The deletion loop of `remove_zip_files` (ku_parser.py lines 65-69):
`ku.unlink()` deletes a file that exists (unless the OS call fails,
modelled by membership in `failing`); on a missing file or a failing
call, `unlink` raises, the exception is caught and logged as a warning,
and the loop continues. -/
def removeLoop (failing : List String) : List String → Staging →
    Staging × List String
  | [], st => (st, [])
  | ku :: rest, st =>
      if ku ∈ st.files ∧ ku ∉ failing then
        removeLoop failing rest { st with files := st.files.filter (fun n => n ≠ ku) }
      else
        let r := removeLoop failing rest st
        (r.1, ("Error removing zip file: " ++ ku) :: r.2)

/-- Model of `KUParser.remove_zip_files` (ku_parser.py lines 57-70):
when `ku_list` is `None`, the targets are the `*.zip` entries of the
download directory (`self.download_path.glob('*.zip')`); otherwise
exactly the supplied names.  Each target is unlinked by `removeLoop`. -/
def remove_zip_files (st : Staging) (ku_list : Option (List String))
    (failing : List String) : Staging × List String :=
  let targets :=
    match ku_list with
    | none => st.files.filter isZipName
    | some l => l
  removeLoop failing targets st

end KUParser

/-- Result of one driver run: the names of the stages that ran to
completion, and the single line printed at the end. -/
structure DriverResult where
  completed : List String
  message : String
  deriving Repr, DecidableEq

/-- Run the stages of the pipeline in order; the first stage whose call
raises stops the run and its exception text is reported by the
top-level handler. -/
def runStages : List (String × Except String Unit) → List String → DriverResult
  | [], done => { completed := done, message := "Done" }
  | (n, Except.ok _) :: rest, done => runStages rest (done ++ [n])
  | (_, Except.error e) :: _, done =>
      { completed := done, message := "An error occurred: " ++ e }

/-- Model of `download_and_process_kus` (main.py lines 4-23): the five
stage calls run sequentially inside a single try block; any escaping
exception is caught by the top-level `except`, which prints one
descriptive message, after which the function returns normally (the
model is a total function).  Each argument is the outcome of the
corresponding stage call. -/
def download_and_process_kus (download ext upload rmZips rmUnpacked :
    Except String Unit) : DriverResult :=
  runStages
    [("download_all_kus", download),
     ("extract_zip_files", ext),
     ("upload_data_to_gdb", upload),
     ("remove_zip_files", rmZips),
     ("remove_unpacked_files", rmUnpacked)] []

section StageLemmas

open KUParser

theorem applyWrites_append (xs ys : List (FPath × String)) (fs : FS) :
    applyWrites (xs ++ ys) fs = applyWrites ys (applyWrites xs fs) := by
  simp [applyWrites, List.foldl_append]

/-- The extraction stage is the batch of writes of its readable
archives, applied in order. -/
theorem extract_zip_files_fst (archives : List Archive) (fs : FS) :
    (extract_zip_files fs archives).1 = applyWrites (stageWrites archives) fs := by
  induction archives generalizing fs with
  | nil => rfl
  | cons a rest ih =>
      rcases a with ⟨nm, oe⟩
      cases oe with
      | some entries =>
          show (extract_zip_files (extract_zip_file fs to_extract entries) rest).1
            = applyWrites (writesOf to_extract entries ++ stageWrites rest) fs
          rw [ih, applyWrites_append]
          rfl
      | none =>
          show (extract_zip_files fs rest).1 = applyWrites (stageWrites rest) fs
          exact ih fs

theorem stageWrites_append (xs ys : List Archive) :
    stageWrites (xs ++ ys) = stageWrites xs ++ stageWrites ys := by
  induction xs with
  | nil => rfl
  | cons a rest ih =>
      rcases a with ⟨nm, oe⟩
      cases oe with
      | some entries =>
          show writesOf to_extract entries ++ stageWrites (rest ++ ys)
            = (writesOf to_extract entries ++ stageWrites rest) ++ stageWrites ys
          rw [ih, List.append_assoc]
      | none =>
          show stageWrites (rest ++ ys) = stageWrites rest ++ stageWrites ys
          exact ih

/-- A corrupt archive anywhere in the batch leaves a warning in the log. -/
theorem extract_warning_mem (archives : List Archive) (fs : FS) (nm : String)
    (h : (nm, (none : Option (List ZipEntry))) ∈ archives) :
    ("Error extracting zip file: " ++ nm) ∈ (extract_zip_files fs archives).2 := by
  induction archives generalizing fs with
  | nil => cases h
  | cons a rest ih =>
      rcases a with ⟨nm2, oe⟩
      cases oe with
      | some entries =>
          rcases List.mem_cons.mp h with he | hr
          · exact absurd (congrArg Prod.snd he) (by simp)
          · exact ih (extract_zip_file fs to_extract entries) hr
      | none =>
          rcases List.mem_cons.mp h with he | hr
          · have : nm = nm2 := congrArg Prod.fst he
            subst this
            exact List.mem_cons_self _ _
          · exact List.mem_cons_of_mem _ (ih fs hr)

/-- A unit whose spatial join raises leaves the engine state exactly as
the run without it, and a warning in the log. -/
theorem upload_loop_skip (joins : String → Option (List Feature))
    (apOk : String → Bool) (bad : String) (hbad : joins bad = none)
    (us vs : List String) (st : EngineState) :
    (upload_loop joins apOk (us ++ bad :: vs) st).1
      = (upload_loop joins apOk (us ++ vs) st).1 ∧
    ("Error processing KU: " ++ bad) ∈ (upload_loop joins apOk (us ++ bad :: vs) st).2 := by
  induction us generalizing st with
  | nil =>
      constructor
      · show (upload_loop joins apOk (bad :: vs) st).1 = _
        simp [upload_loop, process_single_ku, hbad]
      · simp [upload_loop, process_single_ku, hbad]
  | cons a rest ih =>
      constructor
      · show (upload_loop joins apOk (a :: (rest ++ bad :: vs)) st).1 = _
        simp only [upload_loop, List.cons_append]
        exact (ih _).1
      · simp only [upload_loop, List.cons_append]
        exact List.mem_append_right _ (ih _).2

theorem removeLoop_unpacked (failing targets : List String) (st : Staging) :
    (removeLoop failing targets st).1.unpacked = st.unpacked := by
  induction targets generalizing st with
  | nil => rfl
  | cons ku rest ih =>
      rw [removeLoop]
      by_cases h : ku ∈ st.files ∧ ku ∉ failing
      · rw [if_pos h]; exact ih _
      · rw [if_neg h]; exact ih st

/-- Deleting a list of targets with no OS failures removes exactly the
targets from the directory listing. -/
theorem removeLoop_files (targets : List String) (st : Staging) :
    (removeLoop [] targets st).1.files
      = st.files.filter (fun n => !targets.contains n) := by
  induction targets generalizing st with
  | nil =>
      show st.files = st.files.filter (fun n => !([] : List String).contains n)
      simp
  | cons ku rest ih =>
      rw [removeLoop]
      by_cases h : ku ∈ st.files ∧ ku ∉ ([] : List String)
      · rw [if_pos h]
        rw [ih]
        show (st.files.filter (fun n => decide (n ≠ ku))).filter (fun n => !rest.contains n) = _
        rw [List.filter_filter]
        refine List.filter_congr ?_
        intro x _
        by_cases hx : x = ku
        · subst hx
          simp [List.contains_cons]
        · simp [List.contains_cons, hx]
      · rw [if_neg h]
        show (removeLoop [] rest st).1.files = _
        rw [ih]
        refine List.filter_congr ?_
        intro x hx
        have hxk : ¬x = ku := by
          intro he
          exact h ⟨he ▸ hx, List.not_mem_nil ku⟩
        simp [List.contains_cons, hxk]

/-- When every deletion target matches `*.zip`, the non-zip entries of
the directory are untouched. -/
theorem removeLoop_zip_frame (failing targets : List String)
    (hall : ∀ t ∈ targets, isZipName t = true) (st : Staging) :
    (removeLoop failing targets st).1.files.filter (fun n => !isZipName n)
      = st.files.filter (fun n => !isZipName n) := by
  induction targets generalizing st with
  | nil => rfl
  | cons ku rest ih =>
      have hzip : isZipName ku = true := hall ku (List.mem_cons_self _ _)
      have hrest : ∀ t ∈ rest, isZipName t = true :=
        fun t ht => hall t (List.mem_cons_of_mem _ ht)
      rw [removeLoop]
      by_cases h : ku ∈ st.files ∧ ku ∉ failing
      · rw [if_pos h]
        rw [ih hrest]
        show (st.files.filter (fun n => decide (n ≠ ku))).filter (fun n => !isZipName n) = _
        rw [List.filter_filter]
        refine List.filter_congr ?_
        intro x _
        by_cases hx : x = ku
        · subst hx
          simp [hzip]
        · simp [hx]
      · rw [if_neg h]
        exact ih hrest st

/-- A failing deletion target is skipped: the rest of the loop runs as
if it were absent, and a warning is logged. -/
theorem removeLoop_skip (failing : List String) (f : String) (hf : f ∈ failing)
    (ts1 ts2 : List String) (st : Staging) :
    (removeLoop failing (ts1 ++ f :: ts2) st).1 = (removeLoop failing (ts1 ++ ts2) st).1 ∧
    ("Error removing zip file: " ++ f) ∈ (removeLoop failing (ts1 ++ f :: ts2) st).2 := by
  induction ts1 generalizing st with
  | nil =>
      have hc : ¬(f ∈ st.files ∧ f ∉ failing) := fun hx => hx.2 hf
      constructor
      · show (removeLoop failing (f :: ts2) st).1 = (removeLoop failing ts2 st).1
        rw [removeLoop, if_neg hc]
      · show _ ∈ (removeLoop failing (f :: ts2) st).2
        rw [removeLoop, if_neg hc]
        exact List.mem_cons_self _ _
  | cons a rest ih =>
      simp only [List.cons_append, removeLoop]
      by_cases h : a ∈ st.files ∧ a ∉ failing
      · simp only [if_pos h]
        exact ⟨(ih _).1, (ih _).2⟩
      · simp only [if_neg h]
        exact ⟨(ih st).1, List.mem_cons_of_mem _ (ih st).2⟩

end StageLemmas

theorem contains_eq_true_iff {α : Type} [BEq α] [LawfulBEq α] (l : List α) (a : α) :
    l.contains a = true ↔ a ∈ l := by
  simp [List.contains, List.elem_iff]

section Claims

open KUParser

/-- C1 (counterexample): the staged archive `100.zip` contains its
manifest-matched member `PARCELY_KN_P.shp` at the root of the zip.  The
extractor processes it without logging any warning and extracts the
member, but nothing is placed under `unpacked/100/`: the file lands at
`unpacked/PARCELY_KN_P.shp`.  So manifest-listed entries are not, in
general, extracted into `<staging>/unpacked/<UnitIdentifier>/` — the
destination is determined by the member's internal path, not by the
archive's filename. -/
theorem c1_counterexample :
    ((extract_zip_files []
        [("100.zip", some [ZipEntry.mk ["PARCELY_KN_P.shp"] "payload"])]).2 = []) ∧
    (fsLookup (extract_zip_files []
        [("100.zip", some [ZipEntry.mk ["PARCELY_KN_P.shp"] "payload"])]).1
      ["unpacked", "100", "PARCELY_KN_P.shp"] = none) ∧
    (fsLookup (extract_zip_files []
        [("100.zip", some [ZipEntry.mk ["PARCELY_KN_P.shp"] "payload"])]).1
      ["unpacked", "PARCELY_KN_P.shp"] = some "payload") := by
  refine ⟨rfl, ?_, ?_⟩ <;> decide

/-- C1 (amended): for an archive whose member paths are pairwise
distinct, every manifest-matched member is extracted to
`unpacked/<member internal path>` — which equals
`<staging>/unpacked/<UnitIdentifier>/<base>` exactly when the member's
internal directory prefix is the unit identifier — and no other path of
the staging tree is touched. -/
theorem c1_theorem (fs : FS) (entries : List ZipEntry)
    (hnd : ((writesOf to_extract entries).map Prod.fst).Nodup) :
    (∀ e ∈ entries, matchesManifest to_extract e = true →
        fsLookup (extract_zip_file fs to_extract entries) ("unpacked" :: e.filename)
          = some e.content) ∧
    (∀ p : FPath, p ∉ (writesOf to_extract entries).map Prod.fst →
        fsLookup (extract_zip_file fs to_extract entries) p = fsLookup fs p) := by
  constructor
  · intro e he hm
    have hw : (("unpacked" :: e.filename, e.content) : FPath × String)
        ∈ writesOf to_extract entries := by
      have hf : e ∈ entries.filter (matchesManifest to_extract) :=
        List.mem_filter.mpr ⟨he, hm⟩
      exact List.mem_map.mpr ⟨e, hf, rfl⟩
    have hlast := lastWriteTo_of_nodup _ _ _ hnd hw
    show fsLookup (applyWrites (writesOf to_extract entries) fs) _ = _
    rw [fsLookup_applyWrites, hlast]
  · intro p hp
    show fsLookup (applyWrites (writesOf to_extract entries) fs) p = fsLookup fs p
    rw [fsLookup_applyWrites, lastWriteTo_eq_none _ _ hp]

/-- C1 (witness): a member stored under the internal prefix `100/`
inside the archive is extracted to `unpacked/100/PARCELY_KN_P.shp`. -/
theorem c1_witness :
    fsLookup (extract_zip_file [] to_extract
        [ZipEntry.mk ["100", "PARCELY_KN_P.shp"] "geom"])
      ["unpacked", "100", "PARCELY_KN_P.shp"] = some "geom" :=
  (c1_theorem [] [ZipEntry.mk ["100", "PARCELY_KN_P.shp"] "geom"] (by decide)).1
    (ZipEntry.mk ["100", "PARCELY_KN_P.shp"] "geom") (by decide) (by decide)

/-- C2: accumulation policy of `process_single_ku` — when the `KU`
store does not exist, it is created as a copy of the transient joined
feature set; when it exists, the transient features are appended after
the existing rows, and the existing rows are unchanged (they are the
prefix of the result of the original length). -/
theorem c2_theorem (j ku : List Feature) (t u : Option (List Feature)) (b : Bool) :
    ((process_single_ku ⟨none, t⟩ (some j) b).state.ku = some j) ∧
    ((process_single_ku ⟨some ku, u⟩ (some j) true).state.ku = some (ku ++ j)) ∧
    ((ku ++ j).take ku.length = ku) :=
  ⟨rfl, rfl, List.take_left ku j⟩

/-- C3 (evaluation of the code): `upload_data_to_gdb` performs its
workspace setup once, before any unit: the first call creates the file
GDB when absent and deletes the stale `KU` store when present, and the
rest of the trace is exactly workspace assignment, XY-domain bounds,
construction of the spatial-reference object, overwrite enabled,
parallelism at 100%, followed by the per-unit processing.  However, no
event of the trace ever applies a spatial reference to the workspace:
the constructed `SpatialReference` is bound to the unused local `sr`
and discarded, contradicting the claim that the spatial reference is
applied before any join. -/
theorem c3_theorem (gdbExists : Bool) (p n : String) (units : List String) :
    ((upload_data_to_gdb_trace gdbExists p n units).all
        (fun ev => !isApplySpatialReference ev) = true) ∧
    ((upload_data_to_gdb_trace true p n units).take 1 = [GdbEvent.deleteStore "KU"]) ∧
    ((upload_data_to_gdb_trace false p n units).take 1 = [GdbEvent.createFileGDB p n]) ∧
    ((upload_data_to_gdb_trace gdbExists p n units).drop 1
      = [GdbEvent.setWorkspace (p ++ "/" ++ n),
         GdbEvent.setXYDomain "-916406 -1234597 -419902 -738093",
         GdbEvent.makeSpatialReference "S-JTSK_Krovak_East_North",
         GdbEvent.setOverwriteOutput true,
         GdbEvent.setParallelProcessingFactor "100%"]
        ++ units.map GdbEvent.processUnit) := by
  have hall : ∀ us : List String,
      (us.map GdbEvent.processUnit).all (fun ev => !isApplySpatialReference ev) = true := by
    intro us
    rw [List.all_eq_true]
    intro ev hev
    rcases List.mem_map.mp hev with ⟨u, hu, rfl⟩
    rfl
  refine ⟨?_, rfl, rfl, ?_⟩
  · cases gdbExists
    · show (units.map GdbEvent.processUnit).all (fun ev => !isApplySpatialReference ev) = true
      exact hall units
    · show (units.map GdbEvent.processUnit).all (fun ev => !isApplySpatialReference ev) = true
      exact hall units
  · cases gdbExists <;> rfl

/-- C4: transient per-item errors never escalate.  A corrupt archive in
the extraction batch changes nothing of the extracted tree (the other
archives are all extracted) and only adds a warning; a unit whose
spatial join raises leaves the engine state exactly as the run without
it (the other units are all accumulated) and adds a warning; a zip file
whose deletion fails is skipped with a warning and the remaining
deletions still happen.  All three stage loops are total functions:
no per-item error escapes them. -/
theorem c4_theorem (fs : FS) (as bs : List Archive) (nm : String)
    (joins : String → Option (List Feature)) (apOk : String → Bool)
    (us vs : List String) (bad : String) (st : EngineState)
    (stg : Staging) (f : String) (ts1 ts2 : List String) :
    ((extract_zip_files fs (as ++ (nm, none) :: bs)).1
       = (extract_zip_files fs (as ++ bs)).1) ∧
    (("Error extracting zip file: " ++ nm)
       ∈ (extract_zip_files fs (as ++ (nm, none) :: bs)).2) ∧
    ((upload_loop (fun x => if x = bad then none else joins x) apOk
        (us ++ bad :: vs) st).1
       = (upload_loop (fun x => if x = bad then none else joins x) apOk
           (us ++ vs) st).1) ∧
    (("Error processing KU: " ++ bad)
       ∈ (upload_loop (fun x => if x = bad then none else joins x) apOk
           (us ++ bad :: vs) st).2) ∧
    ((removeLoop [f] (ts1 ++ f :: ts2) stg).1
       = (removeLoop [f] (ts1 ++ ts2) stg).1) ∧
    (("Error removing zip file: " ++ f)
       ∈ (removeLoop [f] (ts1 ++ f :: ts2) stg).2) := by
  have hex : (extract_zip_files fs (as ++ (nm, none) :: bs)).1
      = (extract_zip_files fs (as ++ bs)).1 := by
    rw [extract_zip_files_fst, extract_zip_files_fst,
        stageWrites_append, stageWrites_append]
    rfl
  have hup := upload_loop_skip (fun x => if x = bad then none else joins x) apOk bad
    (by simp) us vs st
  have hrm := removeLoop_skip [f] f (List.mem_singleton.mpr rfl) ts1 ts2 stg
  exact ⟨hex,
    extract_warning_mem _ fs nm (List.mem_append_right as (List.mem_cons_self _ _)),
    hup.1, hup.2, hrm.1, hrm.2⟩

/-- C5 (counterexample): the staged archive `100.zip` contains only one
of the ten manifest files (`100/PARCELY_KN_DEF.shp`).  The extractor
processes it without logging any warning, and afterwards the unit
working directory `unpacked/100/` contains that single manifest file
and not its companions — a proper subset of a layer's companion set.
The code never checks manifest completeness. -/
theorem c5_counterexample :
    ((extract_zip_files []
        [("100.zip", some [ZipEntry.mk ["100", "PARCELY_KN_DEF.shp"] "x"])]).2 = []) ∧
    (fsLookup (extract_zip_files []
        [("100.zip", some [ZipEntry.mk ["100", "PARCELY_KN_DEF.shp"] "x"])]).1
      ["unpacked", "100", "PARCELY_KN_DEF.shp"] = some "x") ∧
    (fsLookup (extract_zip_files []
        [("100.zip", some [ZipEntry.mk ["100", "PARCELY_KN_DEF.shp"] "x"])]).1
      ["unpacked", "100", "PARCELY_KN_P.shp"] = none) := by
  refine ⟨rfl, ?_, ?_⟩ <;> decide

/-- C5 (amended): after extracting one archive into an empty tree, a
path holds a file exactly when it is the destination of a
manifest-matched member of the archive, and every such destination lies
directly under `unpacked/` with a manifest-listed base filename.  The
unit working directory therefore contains exactly the manifest names
present in the archive — which may be a proper subset of the ten. -/
theorem c5_theorem (entries : List ZipEntry) (p : FPath) :
    ((fsLookup (extract_zip_file [] to_extract entries) p).isSome
       = ((writesOf to_extract entries).map Prod.fst).contains p) ∧
    (((writesOf to_extract entries).map Prod.fst).all
        (isManifestDest to_extract) = true) := by
  constructor
  · show (fsLookup (applyWrites (writesOf to_extract entries) []) p).isSome = _
    rw [fsLookup_applyWrites]
    cases hl : lastWriteTo (writesOf to_extract entries) p with
    | some c => rw [← lastWriteTo_isSome, hl]
    | none =>
        rw [← lastWriteTo_isSome, hl]
        rfl
  · rw [List.all_eq_true]
    intro q hq
    rcases List.mem_map.mp hq with ⟨w, hw, rfl⟩
    rcases List.mem_map.mp hw with ⟨e, he, rfl⟩
    show isManifestDest to_extract ("unpacked" :: e.filename) = true
    have hm := (List.mem_filter.mp he).2
    show to_extract.contains (baseName e.filename) = true
    exact hm

/-- C6 (counterexample): with the `KU` store present, a unit whose
append into the store fails: the exception propagates out of
`process_single_ku` before the `Delete_management` statement runs, so
the transient `in_memory/spatial_join` dataset is NOT deleted — the
claim's "regardless of whether the copy/append succeeded or failed"
does not hold on the failure path. -/
theorem c6_counterexample :
    ((process_single_ku ⟨some [0], none⟩ (some [1]) false).state.transient = some [1]) ∧
    ((process_single_ku ⟨some [0], none⟩ (some [1]) false).error = some "Append failed") ∧
    ((process_single_ku ⟨some [0], none⟩ (some [1]) false).state.ku = some [0]) :=
  ⟨rfl, rfl, rfl⟩

/-- C6 (amended): the transient joined feature set is deleted after a
fold step that succeeds (both the copy path and the append path); when
the append raises, the exception propagates before the delete statement
and the transient dataset survives the call. -/
theorem c6_theorem (oku t : Option (List Feature)) (ku j : List Feature) :
    ((process_single_ku ⟨oku, t⟩ (some j) true).state.transient = none) ∧
    ((process_single_ku ⟨some ku, t⟩ (some j) false).state.transient = some j) := by
  cases oku
  · exact ⟨rfl, rfl⟩
  · exact ⟨rfl, rfl⟩

/-- C7: extraction is idempotent — running the extraction stage a
second time over the same archives yields a staging tree with identical
contents at every path (re-extraction overwrites each extracted file
with the same bytes and changes nothing else). -/
theorem c7_theorem (fs : FS) (archives : List KUParser.Archive) (q : FPath) :
    fsLookup (extract_zip_files (extract_zip_files fs archives).1 archives).1 q
      = fsLookup (extract_zip_files fs archives).1 q := by
  rw [extract_zip_files_fst archives fs]
  rw [extract_zip_files_fst archives (applyWrites (stageWrites archives) fs)]
  rw [fsLookup_applyWrites, fsLookup_applyWrites]
  cases hl : lastWriteTo (stageWrites archives) q with
  | some c => rfl
  | none => rfl

/-- C8: on a stage-halting failure the driver stops — when fetching,
extraction, or accumulation raises, the later stages (in particular the
two cleanup stages) never complete, and the error is reported as the
single message of the top-level handler, after which the function
returns normally (the model is a total function). -/
theorem c8_theorem (m : String) (e u rz ru : Except String Unit) :
    (download_and_process_kus (Except.error m) e u rz ru
       = ⟨[], "An error occurred: " ++ m⟩) ∧
    (download_and_process_kus (Except.ok ()) (Except.error m) u rz ru
       = ⟨["download_all_kus"], "An error occurred: " ++ m⟩) ∧
    (download_and_process_kus (Except.ok ()) (Except.ok ()) (Except.error m) rz ru
       = ⟨["download_all_kus", "extract_zip_files"], "An error occurred: " ++ m⟩) ∧
    ((download_and_process_kus (Except.ok ()) (Except.ok ()) (Except.error m) rz ru).completed.contains
        "remove_zip_files" = false) ∧
    ((download_and_process_kus (Except.ok ()) (Except.ok ()) (Except.error m) rz ru).completed.contains
        "remove_unpacked_files" = false) := by
  exact ⟨rfl, rfl, rfl, rfl, rfl⟩

/-- C9: archive-removal selectivity of `remove_zip_files` — with no
subset argument, exactly the `*.zip` entries of the staging directory
are removed (all of them, and nothing else); with a supplied subset,
exactly the supplied names are removed and every other entry, archive
or not, stays. -/
theorem c9_theorem (st : KUParser.Staging) (l : List String) :
    ((remove_zip_files st none []).1.files
       = st.files.filter (fun n => !isZipName n)) ∧
    ((remove_zip_files st (some l) []).1.files
       = st.files.filter (fun n => !l.contains n)) := by
  constructor
  · show (removeLoop [] (st.files.filter isZipName) st).1.files = _
    rw [removeLoop_files]
    refine List.filter_congr ?_
    intro x hx
    congr 1
    by_cases hz : isZipName x = true
    · rw [hz]
      exact (contains_eq_true_iff _ _).mpr (List.mem_filter.mpr ⟨hx, hz⟩)
    · have hz' : isZipName x = false := Bool.eq_false_iff.mpr hz
      rw [hz']
      cases hc : (st.files.filter isZipName).contains x
      · rfl
      · exact absurd ((contains_eq_true_iff _ _).mp hc)
          (fun hmem => hz (List.mem_filter.mp hmem).2)
  · show (removeLoop [] l st).1.files = _
    exact removeLoop_files l st

/-- C10 (frame property): `remove_zip_files` with no subset argument
deletes only `*.zip` entries directly inside the download directory —
the whole `unpacked/` subtree is untouched, and the non-zip entries of
the directory listing are exactly what they were, even when some
deletions fail. -/
theorem c10_theorem (st : KUParser.Staging) (failing : List String) :
    ((remove_zip_files st none failing).1.unpacked = st.unpacked) ∧
    ((remove_zip_files st none failing).1.files.filter (fun n => !isZipName n)
       = st.files.filter (fun n => !isZipName n)) := by
  constructor
  · show (removeLoop failing (st.files.filter isZipName) st).1.unpacked = _
    exact removeLoop_unpacked failing _ st
  · show (removeLoop failing (st.files.filter isZipName) st).1.files.filter _ = _
    exact removeLoop_zip_frame failing _ (fun t ht => (List.mem_filter.mp ht).2) st

end Claims
